import Mathlib

/-!
Verification of the ndarray view-deduction and indexing engine.

Shallow embedding of the core of the `ndarray` C++ library
(`include/ndarray/{traits,span,indexer,array,array_view,data_copy,array_rearrange,utils}.h`).

Conventions of the embedding:
  * `size_t` / `ptrdiff_t` quantities are modelled as `Nat` / `Int`.  All the
    C++ arithmetic that matters here stays within the representable range of
    the 64-bit types under the in-bounds hypotheses of the theorems, so the
    `Int` model agrees with the machine arithmetic; signed division and
    remainder (which truncate towards zero in C++) are modelled with
    `Int.tdiv` / `Int.tmod`.
  * `NDARRAY_ASSERT` / `NDARRAY_CHECK_BOUND_SCALAR` (active in checked
    builds) are modelled by returning `Option`: `none` means an assertion
    fired.
  * Pointers into an array's backing store are modelled as integer offsets
    from the start of the store; a buffer is a total map `Int → Int`.
-/

namespace NdArray

/-! ## Indexer and view kinds (`traits.h`)

`enum class indexer_type` and the view classification states of
`identify_view_type`.  The `invalid` members of the C++ enums are sentinels
for template arguments that are not indexers at all; every indexer tuple
actually built by the library uses the five real kinds, so they are omitted
from the value-level model. -/

inductive IndexerType where
  | scalar
  | all
  | simple
  | regular
  | irregular
deriving DecidableEq, Repr

/-- Classification states of `identify_view_type` (`array_obj_type` /
`view_type` in the sources): `scalar` is the start state, the other three are
the three concrete view kinds. -/
inductive ViewState where
  | scalar
  | simple
  | regular
  | irregular
deriving DecidableEq, Repr

/-- One step of the compile-time state machine in
`traits.h:identify_view_type` (the `new_sv` conditional, transcribed). -/
def identifyStep (sv : ViewState) (iv : IndexerType) : ViewState :=
  match sv with
  | .scalar =>
    match iv with
    | .scalar => .scalar
    | .all => .simple
    | .simple => .simple
    | .regular => .regular
    | .irregular => .irregular
  | .simple =>
    match iv with
    | .scalar => .regular
    | .all => .simple
    | _ => .irregular
  | .regular =>
    match iv with
    | .scalar => .regular
    | _ => .irregular
  | .irregular => .irregular

/-- `traits.h:identify_view_type`: walk the indexer tuple left to right,
starting from state `scalar`, and return the final state. -/
def identifyViewType (ixs : List IndexerType) : ViewState :=
  ixs.foldl identifyStep .scalar

/-- Modelled from the spec (§3 "View classification"): the transition table
written in the spec, used as the reference for the code's state machine.
  - state Scalar + All/Simple → Simple; + Regular → Regular;
    + Irregular → Irregular (+ Scalar: everything still collapsed → Scalar);
  - state Simple + Scalar → Regular; + All → Simple; otherwise → Irregular;
  - state Regular + Scalar → Regular; otherwise → Irregular;
  - state Irregular is absorbing. -/
def specStep (sv : ViewState) (iv : IndexerType) : ViewState :=
  match sv, iv with
  | .scalar, .scalar => .scalar
  | .scalar, .all => .simple
  | .scalar, .simple => .simple
  | .scalar, .regular => .regular
  | .scalar, .irregular => .irregular
  | .simple, .scalar => .regular
  | .simple, .all => .simple
  | .simple, _ => .irregular
  | .regular, .scalar => .regular
  | .regular, _ => .irregular
  | .irregular, _ => .irregular

/-- Modelled from the spec: the left-to-right classification fold of §3. -/
def specClassify (ixs : List IndexerType) : ViewState :=
  ixs.foldl specStep .scalar

/-! ## Span normalization helpers (`utils.h`) -/

/-- `utils.h:_add_if_negative` for a signed specification (the usual case;
for an unsigned argument type the C++ template returns `x` unchanged, which
coincides with this on the values such arguments can take). -/
def addIfNegative (x y : Int) : Int :=
  if 0 ≤ x then x else x + y

/-- `utils.h:_add_if_non_positive`. -/
def addIfNonPositive (x y : Int) : Int :=
  if 0 < x then x else x + y

/-- `utils.h:_check_bound_scalar`: `0 <= index && index < size`. -/
def checkBoundScalar (index : Int) (size : Nat) : Bool :=
  0 ≤ index ∧ index < size

/-! ## Spans (`span.h`) and indexers (`indexer.h`)

A span is the user-facing slice request for one axis; an indexer is the
resolved per-axis descriptor stored in a view.  An `_irregular_span` built
from signed indices goes through the negative-wrap + bound-check path of
`collapse_indexer`; that is the path modelled here. -/

inductive Span where
  | all
  | scalar (i : Int)
  | simple (first last : Int)
  | regular (first last step : Int)
  | irregular (indices : List Int)
deriving DecidableEq, Repr

/-- An indexer, as stored (`indexer.h`): `scalar` and `all` are empty,
`simple` stores its size, `regular` stores size and step, `irregular` stores
the explicit list of base offsets (`std::vector<size_t>`; kept as `Int`
because a regular indexer with negative step materializes to offsets whose
`size_t` image wraps — the `Int` value is the one the pointer arithmetic
effectively uses). -/
inductive Indexer where
  | scalar
  | all
  | simple (size : Nat)
  | regular (size : Nat) (step : Int)
  | irregular (list : List Int)
deriving DecidableEq, Repr

/-- `size(base_size)` of an indexer: `all` forwards the base size, the others
report their stored size. -/
def Indexer.sizeOn : Indexer → Nat → Nat
  | .scalar, _ => 0
  | .all, n => n
  | .simple s, _ => s
  | .regular s _, _ => s
  | .irregular l, _ => l.length

/-- `step()` of an indexer: 1 for `all`/`simple`, the stored step for
`regular` (not provided, and never asked for, on the other kinds). -/
def Indexer.step : Indexer → Int
  | .regular _ st => st
  | _ => 1

/-- `at(i)` of an indexer with its checked-build bound check
(`NDARRAY_CHECK_BOUND_SCALAR` for simple/regular, `std::vector::at` for
irregular; `_all_indexer::at` performs no check). -/
def Indexer.atC : Indexer → Int → Option Int
  | .all, i => some i
  | .simple s, i => if 0 ≤ i ∧ i < s then some i else none
  | .regular s st, i => if 0 ≤ i ∧ i < s then some (i * st) else none
  | .irregular l, i => if 0 ≤ i then l.get? i.toNat else none
  | .scalar, _ => none

/-- `operator[]` of an indexer, total (no bound check): the base offset of
the `i`-th element of the axis. -/
def Indexer.posT : Indexer → Nat → Int
  | .scalar, _ => 0
  | .all, i => i
  | .simple _, i => i
  | .regular _ st, i => i * st
  | .irregular l, i => l.getD i 0

/-- Option-valued map over a list, failing as soon as one element fails
(the shape of the element loops in `collapse_indexer` that materialize an
irregular index vector). -/
def mapOpt (f : α → Option β) : List α → Option (List β)
  | [] => some []
  | a :: as =>
    match f a, mapOpt f as with
    | some b, some bs => some (b :: bs)
    | _, _ => none

/-- `span.h:_simple_span::first`: wrap a negative `first` and assert the
result is within the axis. -/
def simpleFirst (first : Int) (n : Nat) : Option Int :=
  let r := addIfNegative first n
  if 0 ≤ r ∧ r ≤ n then some r else none

/-- `span.h:_simple_span::last`: wrap a non-positive `last` and assert the
result is within the axis. -/
def simpleLast (last : Int) (n : Nat) : Option Int :=
  let r := addIfNonPositive last n
  if 0 ≤ r ∧ r ≤ n then some r else none

/-- `span.h:_regular_span::first`: asserts `step != 0`; resolution depends on
the sign of the step, and carries no range assertion (it is commented out in
the source). -/
def regularFirst (first step : Int) (n : Nat) : Option Int :=
  if step = 0 then none
  else if 0 < step then some (addIfNegative first n)
  else some (addIfNonPositive (first + 1) n - 1)

/-- `span.h:_regular_span::last`: mirrored resolution of the upper bound. -/
def regularLast (last step : Int) (n : Nat) : Option Int :=
  if step = 0 then none
  else if 0 < step then some (addIfNonPositive last n)
  else some (addIfNegative (last + 1) n - 1)

/-- The size computed in the regular-span branch of
`indexer.h:collapse_indexer`:
`step > 0 ? (last - first - 1) / step + 1 : (first - last - 1) / (-step) + 1`
with C++ signed division (truncation towards zero, `Int.tdiv`). -/
def regularSpanSize (first last step : Int) : Nat :=
  (if 0 < step then (last - first - 1).tdiv step + 1
   else (first - last - 1).tdiv (-step) + 1).toNat

/-- `indexer.h:collapse_indexer`, transcribed.  Returns the pair
`(offset into the base indexer's coordinate space, new indexer)`, or `none`
when a checked-build assertion fires (including the `static_assert` that the
existing indexer is not scalar). -/
def collapseIndexer (baseSize : Nat) (ix : Indexer) (s : Span) : Option (Int × Indexer) :=
  if ix = .scalar then none else
  let m : Nat := ix.sizeOn baseSize
  match s with
  | .all => some (0, ix)
  | .scalar i =>
    let pos := addIfNegative i m
    if 0 ≤ pos ∧ pos < m then
      match ix.atC pos with
      | some off => some (off, .scalar)
      | none => none
    else none
  | .simple f l =>
    match simpleFirst f m, simpleLast l m with
    | some f', some l' =>
      if f' ≤ l' then
        match ix with
        | .all => some (f', .simple (l' - f').toNat)
        | .simple _ =>
          match ix.atC f' with
          | some off => some (off, .simple (l' - f').toNat)
          | none => none
        | .regular _ st =>
          match ix.atC f' with
          | some off => some (off, .regular (l' - f').toNat st)
          | none => none
        | .irregular _ =>
          match mapOpt (fun k : Nat => ix.atC (f' + (k : Int))) (List.range (l' - f').toNat) with
          | some idxs => some (0, .irregular idxs)
          | none => none
        | .scalar => none
      else none
    | _, _ => none
  | .regular f l st =>
    match regularFirst f st m, regularLast l st m with
    | some f', some l' =>
      if (0 < st ∧ f' ≤ l') ∨ (st < 0 ∧ l' ≤ f') then
        let sz := regularSpanSize f' l' st
        match ix with
        | .irregular _ =>
          match mapOpt (fun k : Nat => ix.atC (f' + (k : Int) * st)) (List.range sz) with
          | some idxs => some (0, .irregular idxs)
          | none => none
        | _ =>
          match ix.atC f' with
          | some off => some (off, .regular sz (st * ix.step))
          | none => none
      else none
    | _, _ => none
  | .irregular idxs =>
    match mapOpt (fun i =>
        let pos := addIfNegative i m
        if 0 ≤ pos ∧ pos < m then ix.atC pos else none) idxs with
    | some l => some (0, .irregular l)
    | none => none

/-- The element positions (offsets into the base axis) denoted by an indexer
placed at `off`, in element order; a collapsed (`scalar`) indexer denotes the
single element it froze. -/
def viewPositions (baseSize : Nat) (off : Int) (ix : Indexer) : List Int :=
  match ix with
  | .scalar => [off]
  | _ => (List.range (ix.sizeOn baseSize)).map (fun i => off + ix.posT i)

/-- Ceiling division on `Nat` (`⌈d / s⌉`), the element count the spec
prescribes for a strided range. -/
def ceilNat (d s : Nat) : Nat :=
  (d + s - 1) / s

/-- Modelled from the spec (§3 span meanings and §4.1 normalization): which
indices of the *existing* axis (of length `m`) a span selects, in order.
This is the reference side of the collapsing invariant: "applying the old
indexer and then the new span to its result".  Bound resolution follows
§4.1 (shared with the code); a selected index that does not exist in the
old axis is a bounds error (`none`).  A strided range takes
`⌈(last-first)/step⌉` elements starting at `first`. -/
def specSelectIndices : Span → Nat → Option (List Int)
  | .all, m => some ((List.range m).map Int.ofNat)
  | .scalar i, m =>
    let p := addIfNegative i m
    if 0 ≤ p ∧ p < m then some [p] else none
  | .simple f l, m =>
    match simpleFirst f m, simpleLast l m with
    | some f', some l' =>
      if f' ≤ l' then
        some ((List.range (l' - f').toNat).map (fun k : Nat => f' + (k : Int)))
      else none
    | _, _ => none
  | .regular f l st, m =>
    match regularFirst f st m, regularLast l st m with
    | some f', some l' =>
      if (0 < st ∧ f' ≤ l') ∨ (st < 0 ∧ l' ≤ f') then
        let cnt := if 0 < st then ceilNat (l' - f').toNat st.toNat
                   else ceilNat (f' - l').toNat (-st).toNat
        let sel := (List.range cnt).map (fun k : Nat => f' + (k : Int) * st)
        if sel.all (fun j => decide (0 ≤ j ∧ j < m)) then some sel else none
      else none
    | _, _ => none
  | .irregular idxs, m =>
    mapOpt (fun i =>
      let p := addIfNegative i m
      if 0 ≤ p ∧ p < m then some p else none) idxs

/-- The side condition under which the code's strided-range size matches the
spec's ceiling count: the resolved range is nonempty, or the step is `±1`.
(When the resolved range is empty and `|step| ≥ 2`, the code's
truncated-division formula yields 1 instead of 0.) -/
def regularNondegenerate (s : Span) (m : Nat) : Prop :=
  match s with
  | .regular f l st =>
    match regularFirst f st m, regularLast l st m with
    | some f', some l' => f' ≠ l' ∨ st.natAbs = 1
    | _, _ => True
  | _ => True

/-! ## Owning arrays, reshape and flatten
(`array.h`, `array_rearrange.h`, `array_interface.h`) -/

/-- An owning array: flat backing vector plus dimension array
(`array<T, Depth>` with `data_` and `dims_`). -/
structure Arr where
  data : List Int
  dims : List Nat
deriving DecidableEq, Repr

/-- `array::size()`: the size of the backing vector. -/
def Arr.size (a : Arr) : Nat :=
  a.data.length

/-- `array::_check_size()`: the backing vector is compatible with the
dimensions (`size() == product(dims)`). -/
def Arr.checkSize (a : Arr) : Bool :=
  a.size == a.dims.prod

/-- `array_rearrange.h:reshape` on an owning array (the vector access path):
the new array is built from `get_vector(src)` — the same backing vector,
reinterpreted under the new dimensions — and `_check_size` then asserts the
dimensions are compatible (`none` models the checked-build assertion). -/
def reshape (a : Arr) (dims : List Nat) : Option Arr :=
  let ret : Arr := ⟨a.data, dims⟩
  if ret.checkSize then some ret else none

/-- `array_rearrange.h:flatten`: reshape to the single dimension
`{src.size()}`. -/
def flatten (a : Arr) : Option Arr :=
  reshape a [a.size]

/-! ## Scalar indexing with bound checks (`array.h:_get_position`) -/

/-- Resolution of one scalar index against one axis: negative wrap
(`_add_if_negative`) followed by the checked-build bound assertion
`NDARRAY_ASSERT(pos_i < dim_i)` (on `size_t`, an index that wrapped to a
negative value fails it as well). -/
def resolveIndex (d : Nat) (i : Int) : Option Nat :=
  let p := addIfNegative i d
  if 0 ≤ p ∧ p < d then some p.toNat else none

/-- `array.h:_get_position`, accumulator form of the recursion
`pos_{d-1} + dim_{d-1} * (pos_{d-2} + dim_{d-2} * (... pos_0))`:
left-to-right, `acc * dim_i + pos_i`.  A length mismatch is a compile-time
error in the source (`static_assert` on the tuple size), modelled as
`none`. -/
def getPositionAux (acc : Nat) : List Nat → List Int → Option Nat
  | [], [] => some acc
  | d :: ds, i :: is =>
    match resolveIndex d i with
    | some p => getPositionAux (acc * d + p) ds is
    | none => none
  | _, _ => none

/-- Checked (debug-build) linear position of a multi-index in an array with
the given dimensions. -/
def getPosition (dims : List Nat) (idx : List Int) : Option Nat :=
  getPositionAux 0 dims idx

/-- Release-build `_get_position`: identical arithmetic with the bound
assertions compiled out (`NDARRAY_ASSERT` expands to nothing).  Out-of-range
results are represented exactly (the C++ `size_t` value is congruent to this
integer modulo `2^64`). -/
def getPositionReleaseAux (acc : Int) : List Nat → List Int → Int
  | [], [] => acc
  | d :: ds, i :: is => getPositionReleaseAux (acc * d + addIfNegative i d) ds is
  | _, _ => acc

/-- Release-build linear position. -/
def getPositionRelease (dims : List Nat) (idx : List Int) : Int :=
  getPositionReleaseAux 0 dims idx

/-! ## Indexer-tuple collapsing at the kind level
(`traits.h:indexer_tuple_collapsing`, `indexer.h:_take_ith_span`) -/

/-- Span kinds (`enum class span_type`, `invalid` omitted as in
`IndexerType`). -/
inductive SpanKind where
  | scalar
  | all
  | simple
  | regular
  | irregular
deriving DecidableEq, Repr

/-- `traits.h:indexer_collapsing`: the result kind of collapsing one span
into one non-scalar indexer. -/
def collapseKind (i : IndexerType) (s : SpanKind) : IndexerType :=
  match s with
  | .scalar => .scalar
  | .all => i
  | .simple => if i = .all then .simple else i
  | .regular => if i = .irregular then .irregular else .regular
  | .irregular => .irregular

/-- `indexer.h:_take_ith_span`: the i-th span of the call, or an implicit
`span()` (All) when the call supplied fewer spans. -/
def takeIthSpan (spans : List Span) (i : Nat) : Span :=
  spans.getD i .all

/-- The number of non-scalar indexers in a tuple
(`traits.h:indexer_tuple_depth`). -/
def nonScalarCount : List IndexerType → Nat
  | [] => 0
  | i :: is => (if i = .scalar then 0 else 1) + nonScalarCount is

/-- `traits.h:indexer_tuple_collapsing_impl`: walk the indexer tuple; a
scalar indexer passes through without consuming a span; spans left over once
the indexers are exhausted hit the `static_assert` "Too many span
specifications." (modelled as `none`); indexers left over once the spans are
exhausted are appended unchanged. -/
def indexerTupleCollapsing : List IndexerType → List SpanKind → Option (List IndexerType)
  | i :: is, s :: ss =>
    if i = .scalar then (indexerTupleCollapsing is (s :: ss)).map (.scalar :: ·)
    else (indexerTupleCollapsing is ss).map (collapseKind i s :: ·)
  | is, [] => some is
  | [], _ :: _ => none

/-! ## Aliasing-aware data copy (`data_copy.h`)

A buffer is a total map from offsets to values; the positions of an operand
are the offsets its elements occupy, in element order. -/

/-- The backing buffer of an array, as a total map (offset ↦ value). -/
abbrev Buf : Type :=
  Int → Int

/-- Point update of a buffer. -/
def bufWrite (b : Buf) (p v : Int) : Buf :=
  fun q => if q = p then v else b q

/-- Sequential element-by-element copy (`copy_from(src.element_begin())` /
`copy_to(...)`): at each step the source value is read from the *live*
buffer. -/
def seqCopy (b : Buf) : List (Int × Int) → Buf
  | [] => b
  | (dp, sp) :: rest => seqCopy (bufWrite b dp (b sp)) rest

/-- Write a list of (position, value) pairs in order. -/
def writeVals (b : Buf) : List (Int × Int) → Buf
  | [] => b
  | (dp, v) :: rest => writeVals (bufWrite b dp v) rest

/-- `aliased_data_copy`, position level: materialize the source values
first, then write them to the destination (the staging buffer). -/
def stagedCopy (b : Buf) (srcPos dstPos : List Int) : Buf :=
  writeVals b (dstPos.zip (srcPos.map b))

/-- `no_alias_data_copy` for non-irregular operands: direct sequential
copy. -/
def directCopy (b : Buf) (srcPos dstPos : List Int) : Buf :=
  seqCopy b (dstPos.zip srcPos)

/-- The storage classification of a copy operand
(`view_type` as used by `data_copy`). -/
inductive OperandKind where
  | array
  | simple
  | regular
  | irregular
deriving DecidableEq, Repr

/-- A copy operand: its classification, its `base_ptr()` (as an offset into
the shared buffer), its `stride()`, and the offsets of its elements in
element order. -/
structure Operand where
  kind : OperandKind
  ptr : Int
  stride : Int
  pos : List Int
deriving Repr

/-- The element positions of a simple view: a contiguous run starting at its
base pointer. -/
def simplePositions (ptr : Int) (size : Nat) : List Int :=
  (List.range size).map (fun i : Nat => ptr + (i : Int))

/-- The element positions of a regular view: an arithmetic progression from
its base pointer with its stride. -/
def regularPositions (ptr stride : Int) (size : Nat) : List Int :=
  (List.range size).map (fun i : Nat => ptr + (i : Int) * stride)

/-- `data_copy.h:data_copy` for two operands whose `_identifier_ptr()`s are
equal (both live in the same backing buffer), transcribed branch by branch.
`%` on pointers is C++ signed remainder, `Int.tmod`. -/
def dataCopySameId (src dst : Operand) (b : Buf) : Buf :=
  let size : Nat := if src.kind = .array then src.pos.length else dst.pos.length
  let sp := src.pos.take size
  let dp := dst.pos.take size
  if src.kind = .array ∧ dst.kind = .array then
    b
  else if src.kind = .array ∨ dst.kind = .array ∨
      src.kind = .irregular ∨ dst.kind = .irregular then
    stagedCopy b sp dp
  else if src.kind = .simple ∧ dst.kind = .simple then
    if src.ptr + size ≤ dst.ptr ∨ dst.ptr + size ≤ src.ptr then
      directCopy b sp dp
    else
      stagedCopy b sp dp
  else if src.kind = .regular ∧ dst.kind = .regular ∧ src.stride = dst.stride then
    if (src.ptr - dst.ptr).tmod src.stride ≠ 0 ∨
        src.ptr + size * src.stride ≤ dst.ptr ∨
        dst.ptr + size * src.stride ≤ src.ptr then
      directCopy b sp dp
    else
      stagedCopy b sp dp
  else
    if src.ptr + size * src.stride ≤ dst.ptr ∨
        dst.ptr + size * dst.stride ≤ src.ptr then
      directCopy b sp dp
    else
      stagedCopy b sp dp

/-! ## The staging buffer of `aliased_data_copy`, with element types
(`data_copy.h:aliased_data_copy`) -/

/-- Integral conversion of a value into an unsigned integral type of
`sz` bytes: reduction modulo `2^(8·sz)`. -/
def convTo (sz : Nat) (v : Int) : Int :=
  v.emod ((2 : Int) ^ (8 * sz))

/-- The element size of `aliased_data_copy`'s staging buffer:
`sizeof(src_elem) < sizeof(dst_elem) ? src_elem : dst_elem`. -/
def tempElemSize (srcSz dstSz : Nat) : Nat :=
  if srcSz < dstSz then srcSz else dstSz

/-- Overwrite a prefix of a list with the given values, one per slot
(the `*dst = *src; ++dst; ++src;` loop of `copy_to`). -/
def overwritePre : List Int → List Int → List Int
  | orig, [] => orig
  | [], _ :: _ => []
  | _ :: os, v :: vs => v :: overwritePre os vs

/-- `aliased_data_copy`, with element sizes: allocate a zero-initialized
staging vector of `src.size()` elements of the smaller element type, run
`src.copy_to(temp.begin(), size)` (writing `size` converted source values),
then run `dst.copy_from(temp.begin(), size)` (the destination receives the
first `size` staging values, converted to its own element type).  Returns
(staging buffer contents, values received by the destination in element
order). -/
def aliasedDataCopyTyped (srcSz dstSz : Nat) (srcVals : List Int) (size : Nat) :
    List Int × List Int :=
  let temp0 : List Int := List.replicate srcVals.length 0
  let temp := overwritePre temp0 ((srcVals.take size).map (convTo (tempElemSize srcSz dstSz)))
  let dstVals := (temp.take size).map (convTo dstSz)
  (temp, dstVals)

end NdArray

namespace NdArray

theorem identifyStep_eq_specStep : ∀ sv iv, identifyStep sv iv = specStep sv iv := by
  intro sv iv
  cases sv <;> cases iv <;> rfl

/-- C1: the view classification computed by `identify_view_type` is exactly
the left-to-right state fold given in the spec (start state Scalar,
Simple + Scalar → Regular, Regular + non-Scalar → Irregular, Irregular
absorbing), it is deterministic (it is a function of the kind sequence), and
on the three example sequences it yields Irregular, Simple and Regular
respectively. -/
theorem identifyViewType_eq_specClassify :
    (∀ ixs : List IndexerType, identifyViewType ixs = specClassify ixs) ∧
    identifyViewType [.all, .scalar, .all] = .irregular ∧
    identifyViewType [.scalar, .all, .all] = .simple ∧
    identifyViewType [.all, .all, .scalar] = .regular := by
  refine ⟨fun ixs => ?_, rfl, rfl, rfl⟩
  have main : ∀ (l : List IndexerType) (s : ViewState),
      l.foldl identifyStep s = l.foldl specStep s := by
    intro l
    induction l with
    | nil => intro s; rfl
    | cons i is ih => intro s; simp only [List.foldl, identifyStep_eq_specStep, ih]
  exact main ixs .scalar

/-! ### Helper lemmas about indexers and `mapOpt` -/

theorem Indexer.atC_eq_posT {ix : Indexer} {j v : Int} (hj : 0 ≤ j)
    (h : ix.atC j = some v) : v = ix.posT j.toNat := by
  cases ix with
  | scalar => simp [Indexer.atC] at h
  | all =>
    simp only [Indexer.atC, Option.some.injEq] at h
    simp [Indexer.posT, ← h, Int.toNat_of_nonneg hj]
  | simple s =>
    simp only [Indexer.atC] at h
    split at h
    · simp only [Option.some.injEq] at h
      simp [Indexer.posT, ← h, Int.toNat_of_nonneg hj]
    · exact absurd h (by simp)
  | regular s st =>
    simp only [Indexer.atC] at h
    split at h
    · simp only [Option.some.injEq] at h
      simp [Indexer.posT, ← h, Int.toNat_of_nonneg hj]
    · exact absurd h (by simp)
  | irregular l =>
    simp only [Indexer.atC, hj, if_pos] at h
    simp only [Indexer.posT, List.getD]
    rw [h]
    rfl

theorem Indexer.atC_eq_mul_step {ix : Indexer} {j v : Int}
    (hix : ix = .all ∨ (∃ s, ix = .simple s) ∨ ∃ s st, ix = .regular s st)
    (h : ix.atC j = some v) : v = j * ix.step := by
  rcases hix with h1 | ⟨s, h1⟩ | ⟨s, st, h1⟩ <;> subst h1
  · simp only [Indexer.atC, Option.some.injEq] at h
    simp [Indexer.step, ← h]
  · simp only [Indexer.atC] at h
    split at h
    · simp only [Option.some.injEq] at h
      simp [Indexer.step, ← h]
    · exact absurd h (by simp)
  · simp only [Indexer.atC] at h
    split at h
    · simp only [Option.some.injEq] at h
      simp [Indexer.step, ← h]
    · exact absurd h (by simp)

theorem mapOpt_eq_map {f : α → Option β} {g : α → β} :
    ∀ {l : List α} {r : List β}, mapOpt f l = some r →
      (∀ a ∈ l, ∀ b, f a = some b → b = g a) → r = l.map g := by
  intro l
  induction l with
  | nil => intro r h _; simp only [mapOpt, Option.some.injEq] at h; simp [← h]
  | cons a as ih =>
    intro r h hptw
    simp only [mapOpt] at h
    cases hfa : f a with
    | none => rw [hfa] at h; exact absurd h (by simp)
    | some b =>
      rw [hfa] at h
      cases hrec : mapOpt f as with
      | none => rw [hrec] at h; exact absurd h (by simp)
      | some bs =>
        rw [hrec] at h
        simp only [Option.some.injEq] at h
        subst h
        have hb := hptw a (by simp) b hfa
        have hbs := ih hrec (fun x hx => hptw x (by simp [hx]))
        simp [List.map, hb, hbs]

theorem mapOpt_rel {F : α → Option β} {G : α → Option γ} {g : γ → β} :
    ∀ {l : List α} {r1 : List β} {r2 : List γ},
      mapOpt F l = some r1 → mapOpt G l = some r2 →
      (∀ a ∈ l, ∀ b c, F a = some b → G a = some c → b = g c) →
      r1 = r2.map g := by
  intro l
  induction l with
  | nil =>
    intro r1 r2 h1 h2 _
    simp only [mapOpt, Option.some.injEq] at h1 h2
    simp [← h1, ← h2]
  | cons a as ih =>
    intro r1 r2 h1 h2 hptw
    simp only [mapOpt] at h1 h2
    cases hFa : F a with
    | none => rw [hFa] at h1; exact absurd h1 (by simp)
    | some b =>
      rw [hFa] at h1
      cases hrec1 : mapOpt F as with
      | none => rw [hrec1] at h1; exact absurd h1 (by simp)
      | some bs =>
        rw [hrec1] at h1
        cases hGa : G a with
        | none => rw [hGa] at h2; exact absurd h2 (by simp)
        | some c =>
          rw [hGa] at h2
          cases hrec2 : mapOpt G as with
          | none => rw [hrec2] at h2; exact absurd h2 (by simp)
          | some cs =>
            rw [hrec2] at h2
            simp only [Option.some.injEq] at h1 h2
            subst h1 h2
            have hb := hptw a (by simp) b c hFa hGa
            have hbs := ih hrec1 hrec2 (fun x hx => hptw x (by simp [hx]))
            simp [List.map, hb, hbs]

theorem mapOpt_isSome_of_forall {f : α → Option β} :
    ∀ {l : List α}, (∀ a ∈ l, (f a).isSome) → (mapOpt f l).isSome := by
  intro l
  induction l with
  | nil => intro _; simp [mapOpt]
  | cons a as ih =>
    intro h
    have ha := h a (by simp)
    have has := ih (fun x hx => h x (by simp [hx]))
    simp only [mapOpt]
    cases hfa : f a with
    | none => rw [hfa] at ha; simp at ha
    | some b =>
      cases hrec : mapOpt f as with
      | none => rw [hrec] at has; simp at has
      | some bs => simp

theorem tdiv_toNat_of_nonneg {a b : Int} (ha : 0 ≤ a) (hb : 0 < b) :
    (a.tdiv b).toNat = a.toNat / b.toNat := by
  have ha' : a = (a.toNat : Int) := (Int.toNat_of_nonneg ha).symm
  have hb' : b = (b.toNat : Int) := (Int.toNat_of_nonneg hb.le).symm
  rw [ha', hb', ← Int.ofNat_tdiv]
  exact Int.toNat_ofNat _

/-- The code's strided size `(last - first - 1) / step + 1` (truncating
division) agrees with the ceiling count whenever the resolved range is
nonempty or the step is 1. -/
theorem regularSpanSize_eq_ceil_pos {f' l' st : Int} (hst : 0 < st)
    (hle : f' ≤ l') (hnd : f' ≠ l' ∨ st.natAbs = 1) :
    regularSpanSize f' l' st = ceilNat (l' - f').toNat st.toNat := by
  rcases eq_or_lt_of_le hle with heq | hlt
  · subst heq
    have hst1 : st = 1 := by
      rcases hnd with h | h
      · exact absurd rfl h
      · omega
    subst hst1
    simp [regularSpanSize, ceilNat, Int.tdiv_one]
  · have hd : (1 : Int) ≤ l' - f' := by omega
    have hd0 : 0 ≤ l' - f' - 1 := by omega
    simp only [regularSpanSize, ceilNat, if_pos hst]
    have htd : 0 ≤ (l' - f' - 1).tdiv st := Int.tdiv_nonneg hd0 hst.le
    have h1 : ((l' - f' - 1).tdiv st + 1).toNat = ((l' - f' - 1).tdiv st).toNat + 1 := by
      omega
    rw [h1, tdiv_toNat_of_nonneg hd0 hst]
    have hD : 1 ≤ (l' - f').toNat := by omega
    have hS : 1 ≤ st.toNat := by omega
    have hsub : (l' - f' - 1).toNat = (l' - f').toNat - 1 := by omega
    rw [hsub]
    have harr := Nat.add_div_right ((l' - f').toNat - 1) (Nat.lt_of_lt_of_le Nat.zero_lt_one hS)
    have heq2 : (l' - f').toNat - 1 + st.toNat = (l' - f').toNat + st.toNat - 1 := by omega
    rw [heq2] at harr
    exact harr.symm


theorem regularSpanSize_eq_ceil_neg {f' l' st : Int} (hst : st < 0)
    (hle : l' ≤ f') (hnd : f' ≠ l' ∨ st.natAbs = 1) :
    regularSpanSize f' l' st = ceilNat (f' - l').toNat (-st).toNat := by
  rcases eq_or_lt_of_le hle with heq | hlt
  · subst heq
    have hst1 : st = -1 := by
      rcases hnd with h | h
      · exact absurd rfl h.symm
      · omega
    subst hst1
    simp [regularSpanSize, ceilNat, Int.tdiv_one]
  · have hd : (1 : Int) ≤ f' - l' := by omega
    have hd0 : 0 ≤ f' - l' - 1 := by omega
    have hnst : 0 < -st := by omega
    simp only [regularSpanSize, if_neg (by omega : ¬ 0 < st)]
    have htd : 0 ≤ (f' - l' - 1).tdiv (-st) := Int.tdiv_nonneg hd0 hnst.le
    have h1 : ((f' - l' - 1).tdiv (-st) + 1).toNat = ((f' - l' - 1).tdiv (-st)).toNat + 1 := by
      omega
    rw [h1, tdiv_toNat_of_nonneg hd0 hnst]
    have hS : 1 ≤ (-st).toNat := by omega
    have hsub : (f' - l' - 1).toNat = (f' - l').toNat - 1 := by omega
    rw [hsub]
    have harr := Nat.add_div_right ((f' - l').toNat - 1) (Nat.lt_of_lt_of_le Nat.zero_lt_one hS)
    have heq2 : (f' - l').toNat - 1 + (-st).toNat = (f' - l').toNat + (-st).toNat - 1 := by omega
    rw [heq2] at harr
    exact harr.symm

theorem viewPositions_irregular (l : List Int) (n : Nat) :
    viewPositions n 0 (.irregular l) = l := by
  simp only [viewPositions, Indexer.sizeOn]
  apply List.ext_get
  · simp
  · intro i h1 h2
    simp only [List.get_eq_getElem, List.getElem_map, List.getElem_range]
    simp only [Indexer.posT, List.getD_eq_getElem l 0 (by simpa using h2)]
    ring

/-! ### Per-span-kind composition lemmas for `collapse_indexer` -/

theorem compose_all_span {n : Nat} {ix : Indexer} {off : Int} {ix' : Indexer} {sel : List Int}
    (h : collapseIndexer n ix .all = some (off, ix'))
    (hsel : specSelectIndices .all (ix.sizeOn n) = some sel) :
    viewPositions n off ix' = sel.map (fun j => ix.posT j.toNat) := by
  by_cases hix : ix = .scalar
  · subst hix; simp [collapseIndexer] at h
  · simp only [collapseIndexer, if_neg hix] at h
    simp only [Option.some.injEq, Prod.mk.injEq] at h
    obtain ⟨hoff, hix'⟩ := h
    simp only [specSelectIndices, Option.some.injEq] at hsel
    subst hoff hix' hsel
    cases ix with
    | scalar => exact absurd rfl hix
    | all => simp [viewPositions, List.map_map]
    | simple s => simp [viewPositions, List.map_map]
    | regular s st => simp [viewPositions, List.map_map]
    | irregular l =>
      rw [viewPositions_irregular]
      simp only [Indexer.sizeOn, List.map_map]
      apply List.ext_get
      · simp
      · intro i h1 h2
        simp only [List.get_eq_getElem, List.getElem_map, List.getElem_range,
          Function.comp_apply]
        simp [Indexer.posT, List.getElem?_eq_getElem h1]

theorem simpleFirst_bounds {f : Int} {m : Nat} {f' : Int}
    (h : simpleFirst f m = some f') : 0 ≤ f' ∧ f' ≤ m := by
  simp only [simpleFirst] at h
  split at h
  · next hg => simp only [Option.some.injEq] at h; subst h; exact hg
  · exact absurd h (by simp)

theorem simpleLast_bounds {l : Int} {m : Nat} {l' : Int}
    (h : simpleLast l m = some l') : 0 ≤ l' ∧ l' ≤ m := by
  simp only [simpleLast] at h
  split at h
  · next hg => simp only [Option.some.injEq] at h; subst h; exact hg
  · exact absurd h (by simp)

theorem compose_simple_span {n : Nat} {ix : Indexer} {f l off : Int} {ix' : Indexer}
    {sel : List Int}
    (h : collapseIndexer n ix (.simple f l) = some (off, ix'))
    (hsel : specSelectIndices (.simple f l) (ix.sizeOn n) = some sel) :
    viewPositions n off ix' = sel.map (fun j => ix.posT j.toNat) := by
  by_cases hix : ix = .scalar
  · subst hix; simp [collapseIndexer] at h
  · simp only [collapseIndexer, if_neg hix] at h
    simp only [specSelectIndices] at hsel
    cases hf : simpleFirst f (ix.sizeOn n) with
    | none => rw [hf] at h; exact absurd h (by simp)
    | some f' =>
      cases hl : simpleLast l (ix.sizeOn n) with
      | none => rw [hf, hl] at h; exact absurd h (by simp)
      | some l' =>
        rw [hf, hl] at h hsel
        dsimp only at h hsel
        by_cases hfl : f' ≤ l'
        · rw [if_pos hfl] at h hsel
          simp only [Option.some.injEq] at hsel
          subst hsel
          have hf0 : 0 ≤ f' := (simpleFirst_bounds hf).1
          have hsum : ∀ k : Nat, ((f' + k).toNat : Int) = f' + k := by
            intro k
            exact Int.toNat_of_nonneg (by omega)
          cases ix with
          | scalar => exact absurd rfl hix
          | all =>
            simp only [Option.some.injEq, Prod.mk.injEq] at h
            obtain ⟨hoff, hix'⟩ := h
            subst hoff hix'
            simp only [viewPositions, Indexer.sizeOn, List.map_map]
            apply List.map_congr_left
            intro a _
            simp [Indexer.posT, Function.comp, hsum a]
          | simple s =>
            cases hat : Indexer.atC (.simple s) f' with
            | none => rw [hat] at h; exact absurd h (by simp)
            | some o =>
              rw [hat] at h
              simp only [Option.some.injEq, Prod.mk.injEq] at h
              obtain ⟨hoff, hix'⟩ := h
              subst hoff hix'
              have ho : o = f' := by
                have := Indexer.atC_eq_mul_step (by simp) hat
                simpa [Indexer.step] using this
              subst ho
              simp only [viewPositions, Indexer.sizeOn, List.map_map]
              apply List.map_congr_left
              intro a _
              simp [Indexer.posT, Function.comp, hsum a]
          | regular s st =>
            cases hat : Indexer.atC (.regular s st) f' with
            | none => rw [hat] at h; exact absurd h (by simp)
            | some o =>
              rw [hat] at h
              simp only [Option.some.injEq, Prod.mk.injEq] at h
              obtain ⟨hoff, hix'⟩ := h
              subst hoff hix'
              have ho : o = f' * st := by
                have := Indexer.atC_eq_mul_step (by simp) hat
                simpa [Indexer.step] using this
              subst ho
              simp only [viewPositions, Indexer.sizeOn, List.map_map]
              apply List.map_congr_left
              intro a _
              simp only [Function.comp_apply, Indexer.posT, hsum a]
              ring
          | irregular lst =>
            cases hmap : mapOpt (fun k : Nat => Indexer.atC (.irregular lst) (f' + (k : Int)))
                (List.range (l' - f').toNat) with
            | none => rw [hmap] at h; exact absurd h (by simp)
            | some idxs =>
              rw [hmap] at h
              simp only [Option.some.injEq, Prod.mk.injEq] at h
              obtain ⟨hoff, hix'⟩ := h
              subst hoff hix'
              rw [viewPositions_irregular]
              rw [mapOpt_eq_map hmap
                (fun k _ b hb => Indexer.atC_eq_posT (by omega) hb)]
              simp [List.map_map, Function.comp]
        · rw [if_neg hfl] at h
          exact absurd h (by simp)

theorem compose_regular_span {n : Nat} {ix : Indexer} {f l st off : Int} {ix' : Indexer}
    {sel : List Int}
    (h : collapseIndexer n ix (.regular f l st) = some (off, ix'))
    (hsel : specSelectIndices (.regular f l st) (ix.sizeOn n) = some sel)
    (hnd : regularNondegenerate (.regular f l st) (ix.sizeOn n)) :
    viewPositions n off ix' = sel.map (fun j => ix.posT j.toNat) := by
  by_cases hix : ix = .scalar
  · subst hix; simp [collapseIndexer] at h
  · simp only [collapseIndexer, if_neg hix] at h
    simp only [specSelectIndices] at hsel
    simp only [regularNondegenerate] at hnd
    cases hf : regularFirst f st (ix.sizeOn n) with
    | none => rw [hf] at h; exact absurd h (by simp)
    | some f' =>
      cases hl : regularLast l st (ix.sizeOn n) with
      | none => rw [hf, hl] at h; exact absurd h (by simp)
      | some l' =>
        rw [hf, hl] at h hsel hnd
        dsimp only at h hsel hnd
        by_cases hord : (0 < st ∧ f' ≤ l') ∨ (st < 0 ∧ l' ≤ f')
        · rw [if_pos hord] at h hsel
          have hcnt : (if 0 < st then ceilNat (l' - f').toNat st.toNat
              else ceilNat (f' - l').toNat (-st).toNat) = regularSpanSize f' l' st := by
            rcases hord with ⟨hst, hle⟩ | ⟨hst, hle⟩
            · rw [if_pos hst]; exact (regularSpanSize_eq_ceil_pos hst hle hnd).symm
            · rw [if_neg (by omega)]; exact (regularSpanSize_eq_ceil_neg hst hle hnd).symm
          rw [hcnt] at hsel
          split at hsel
          · next hbnd =>
            simp only [Option.some.injEq] at hsel
            subst hsel
            have hbnd' : ∀ k : Nat, k < regularSpanSize f' l' st →
                0 ≤ f' + (k : Int) * st ∧ f' + (k : Int) * st < ix.sizeOn n := by
              intro k hk
              have hmem : f' + (k : Int) * st ∈
                  (List.range (regularSpanSize f' l' st)).map
                    (fun k : Nat => f' + (k : Int) * st) :=
                List.mem_map_of_mem _ (List.mem_range.mpr hk)
              have := List.all_eq_true.mp hbnd _ hmem
              exact of_decide_eq_true this
            cases ix with
            | scalar => exact absurd rfl hix
            | irregular lst =>
              cases hmap : mapOpt
                  (fun k : Nat => Indexer.atC (.irregular lst) (f' + (k : Int) * st))
                  (List.range (regularSpanSize f' l' st)) with
              | none => rw [hmap] at h; exact absurd h (by simp)
              | some idxs =>
                rw [hmap] at h
                simp only [Option.some.injEq, Prod.mk.injEq] at h
                obtain ⟨hoff, hix'⟩ := h
                subst hoff hix'
                rw [viewPositions_irregular]
                rw [mapOpt_eq_map hmap (fun k hk b hb =>
                  Indexer.atC_eq_posT
                    (hbnd' k (List.mem_range.mp hk)).1 hb)]
                simp [List.map_map, Function.comp]
            | all =>
              cases hat : Indexer.atC .all f' with
              | none => rw [hat] at h; exact absurd h (by simp)
              | some o =>
                rw [hat] at h
                simp only [Option.some.injEq, Prod.mk.injEq] at h
                obtain ⟨hoff, hix'⟩ := h
                subst hoff hix'
                have ho : o = f' := by
                  have := Indexer.atC_eq_mul_step (by simp) hat
                  simpa [Indexer.step] using this
                subst ho
                simp only [viewPositions, Indexer.sizeOn, List.map_map]
                apply List.ext_get
                · simp
                · intro i h1 h2
                  simp only [List.get_eq_getElem, List.getElem_map, List.getElem_range,
                    Function.comp_apply, Indexer.posT, Indexer.step]
                  have hb := hbnd' i (by simpa using h1)
                  rw [Int.toNat_of_nonneg hb.1]
                  ring
            | simple s =>
              cases hat : Indexer.atC (.simple s) f' with
              | none => rw [hat] at h; exact absurd h (by simp)
              | some o =>
                rw [hat] at h
                simp only [Option.some.injEq, Prod.mk.injEq] at h
                obtain ⟨hoff, hix'⟩ := h
                subst hoff hix'
                have ho : o = f' := by
                  have := Indexer.atC_eq_mul_step (by simp) hat
                  simpa [Indexer.step] using this
                subst ho
                simp only [viewPositions, Indexer.sizeOn, List.map_map]
                apply List.ext_get
                · simp
                · intro i h1 h2
                  simp only [List.get_eq_getElem, List.getElem_map, List.getElem_range,
                    Function.comp_apply, Indexer.posT, Indexer.step]
                  have hb := hbnd' i (by simpa using h1)
                  rw [Int.toNat_of_nonneg hb.1]
                  ring
            | regular s st0 =>
              cases hat : Indexer.atC (.regular s st0) f' with
              | none => rw [hat] at h; exact absurd h (by simp)
              | some o =>
                rw [hat] at h
                simp only [Option.some.injEq, Prod.mk.injEq] at h
                obtain ⟨hoff, hix'⟩ := h
                subst hoff hix'
                have ho : o = f' * st0 := by
                  have := Indexer.atC_eq_mul_step (by simp) hat
                  simpa [Indexer.step] using this
                subst ho
                simp only [viewPositions, Indexer.sizeOn, List.map_map]
                apply List.ext_get
                · simp
                · intro i h1 h2
                  simp only [List.get_eq_getElem, List.getElem_map, List.getElem_range,
                    Function.comp_apply, Indexer.posT, Indexer.step]
                  have hb := hbnd' i (by simpa using h1)
                  rw [Int.toNat_of_nonneg hb.1]
                  ring
          · next hbnd => exact absurd hsel (by simp)
        · rw [if_neg hord] at h
          exact absurd h (by simp)

theorem compose_scalar_span {n : Nat} {ix : Indexer} {i off : Int} {ix' : Indexer}
    {sel : List Int}
    (h : collapseIndexer n ix (.scalar i) = some (off, ix'))
    (hsel : specSelectIndices (.scalar i) (ix.sizeOn n) = some sel) :
    viewPositions n off ix' = sel.map (fun j => ix.posT j.toNat) := by
  by_cases hix : ix = .scalar
  · subst hix; simp [collapseIndexer] at h
  · simp only [collapseIndexer, if_neg hix] at h
    simp only [specSelectIndices] at hsel
    split at h
    · next hguard =>
      rw [if_pos hguard] at hsel
      simp only [Option.some.injEq] at hsel
      subst hsel
      cases hat : (ix.atC (addIfNegative i (ix.sizeOn n))) with
      | none => rw [hat] at h; exact absurd h (by simp)
      | some o =>
        rw [hat] at h
        simp only [Option.some.injEq, Prod.mk.injEq] at h
        obtain ⟨hoff, hix'⟩ := h
        subst hoff hix'
        simp only [viewPositions, List.map_cons, List.map_nil]
        rw [Indexer.atC_eq_posT hguard.1 hat]
    · next hguard =>
      exact absurd h (by simp)

theorem compose_irregular_span {n : Nat} {ix : Indexer} {idxs : List Int} {off : Int}
    {ix' : Indexer} {sel : List Int}
    (h : collapseIndexer n ix (.irregular idxs) = some (off, ix'))
    (hsel : specSelectIndices (.irregular idxs) (ix.sizeOn n) = some sel) :
    viewPositions n off ix' = sel.map (fun j => ix.posT j.toNat) := by
  by_cases hix : ix = .scalar
  · subst hix; simp [collapseIndexer] at h
  · simp only [collapseIndexer, if_neg hix] at h
    simp only [specSelectIndices] at hsel
    split at h
    · next lst2 hmap =>
      simp only [Option.some.injEq, Prod.mk.injEq] at h
      obtain ⟨hoff, hix'⟩ := h
      subst hoff hix'
      rw [viewPositions_irregular]
      apply mapOpt_rel hmap hsel
      intro a _ b c hF hG
      by_cases hguard : 0 ≤ addIfNegative a (ix.sizeOn n) ∧
          addIfNegative a (ix.sizeOn n) < (ix.sizeOn n : Int)
      · rw [if_pos hguard] at hF hG
        simp only [Option.some.injEq] at hG
        subst hG
        exact Indexer.atC_eq_posT hguard.1 hF
      · rw [if_neg hguard] at hG
        exact absurd hG (by simp)
    · next hmap => exact absurd h (by simp)

/-- C2 (amended): composing an existing non-scalar axis indexer with a new
span via `collapse_indexer` is faithful to "apply the old indexer, then apply
the span to its result": whenever `collapse_indexer` succeeds, the reference
selection succeeds, and — for a strided span — the resolved range is nonempty
or the step is `±1`, the positions denoted by (offset, new indexer) over the
base axis are exactly the old position list filtered through the span's
selection, in the same order. -/
theorem collapseIndexer_composes {n : Nat} {ix : Indexer} {s : Span} {off : Int}
    {ix' : Indexer} {sel : List Int}
    (h : collapseIndexer n ix s = some (off, ix'))
    (hsel : specSelectIndices s (ix.sizeOn n) = some sel)
    (hnd : regularNondegenerate s (ix.sizeOn n)) :
    viewPositions n off ix' = sel.map (fun j => ix.posT j.toNat) := by
  cases s with
  | all => exact compose_all_span h hsel
  | scalar i => exact compose_scalar_span h hsel
  | simple f l => exact compose_simple_span h hsel
  | regular f l st => exact compose_regular_span h hsel hnd
  | irregular idxs => exact compose_irregular_span h hsel

/-- Witness for `collapseIndexer_composes`: slicing an axis that carries a
simple indexer of size 7 (over a base axis of length 10) with `span(0,6,2)`
selects old indices 0,2,4 and composes to the regular indexer of size 3 and
step 2 at offset 0. -/
theorem collapseIndexer_composes_witness :
    collapseIndexer 10 (.simple 7) (.regular 0 6 2) = some (0, .regular 3 2) ∧
    specSelectIndices (.regular 0 6 2) ((Indexer.simple 7).sizeOn 10) =
      some [0, 2, 4] ∧
    viewPositions 10 0 (.regular 3 2) =
      List.map (fun j : Int => (Indexer.simple 7).posT j.toNat) ([0, 2, 4] : List Int) := by
  have h1 : collapseIndexer 10 (.simple 7) (.regular 0 6 2) = some (0, .regular 3 2) := by
    decide
  have h2 : specSelectIndices (.regular 0 6 2) ((Indexer.simple 7).sizeOn 10) =
      some [0, 2, 4] := by decide
  have h3 : regularNondegenerate (.regular 0 6 2) ((Indexer.simple 7).sizeOn 10) := by
    unfold regularNondegenerate
    dsimp only
    rw [show regularFirst 0 2 ((Indexer.simple 7).sizeOn 10) = some 0 from rfl,
        show regularLast 6 2 ((Indexer.simple 7).sizeOn 10) = some 6 from rfl]
    exact Or.inl (by decide)
  exact ⟨h1, h2, collapseIndexer_composes h1 h2 h3⟩

/-- C2 counterexample: with the resolved bounds equal and step 2
(`span(1,1,2)` on a fresh axis of length 10), `collapse_indexer` succeeds and
produces a one-element view (position 1 of the base axis), while applying the
old indexer and then the span to its result selects nothing — the composed
view does not equal old-then-new, refuting the claim as stated. -/
theorem collapseIndexer_composes_counterexample :
    collapseIndexer 10 .all (.regular 1 1 2) = some (1, .regular 1 2) ∧
    specSelectIndices (.regular 1 1 2) (Indexer.all.sizeOn 10) = some [] ∧
    viewPositions 10 1 (.regular 1 2) = [1] ∧
    viewPositions 10 1 (.regular 1 2) ≠
      List.map (fun j : Int => Indexer.all.posT j.toNat) [] := by
  refine ⟨by decide, by decide, by decide, by decide⟩

/-- C5 (amended): for a `Regular` span with positive step applied to a fresh
axis, once `first` and `last` are resolved (negative wrap for `first`,
non-positive wrap for `last`), the size of the resulting axis is
`⌈(last - first) / step⌉` — provided the resolved range is nonempty or the
step is 1.  (When `first = last` and `step ≥ 2` the code's
`(last - first - 1)/step + 1` with truncation towards zero yields 1, not
0.) -/
theorem regularSpanResolvedSize {n : Nat} {f l st f' l' : Int} (hst : 0 < st)
    (hf : regularFirst f st n = some f')
    (hl : regularLast l st n = some l')
    (hle : f' ≤ l') (hnd : f' < l' ∨ st = 1) :
    collapseIndexer n .all (.regular f l st) =
      some (f', .regular (ceilNat (l' - f').toNat st.toNat) st) := by
  simp only [collapseIndexer, if_neg (by decide : ¬(Indexer.all = Indexer.scalar)),
    Indexer.sizeOn]
  rw [hf, hl]
  dsimp only
  rw [if_pos (Or.inl ⟨hst, hle⟩)]
  have hnd' : f' ≠ l' ∨ st.natAbs = 1 := by
    rcases hnd with h | h
    · exact Or.inl (by omega)
    · subst h; exact Or.inr rfl
  rw [regularSpanSize_eq_ceil_pos hst hle hnd']
  simp [Indexer.step, Indexer.atC]

/-- Witness for `regularSpanResolvedSize`: `span(0,6,2)` on a fresh axis of
length 10 resolves to `[0,6)` step 2 and yields 3 elements. -/
theorem regularSpanResolvedSize_witness :
    collapseIndexer 10 .all (.regular 0 6 2) = some (0, .regular 3 2) := by
  have h := regularSpanResolvedSize (show (0 : Int) < 2 by decide)
    (show regularFirst 0 2 10 = some 0 by decide)
    (show regularLast 6 2 10 = some 6 by decide)
    (show (0 : Int) ≤ 6 by decide)
    (Or.inl (show (0 : Int) < 6 by decide))
  exact h.trans (by decide)

/-- C5 counterexample: resolving `span(1,1,2)` against an axis of length 10
gives `first = last = 1`, whose spec size `⌈(1-1)/2⌉` is 0, but the collapsed
indexer has size 1. -/
theorem regularSpanSize_empty_counterexample :
    regularFirst 1 2 10 = some 1 ∧ regularLast 1 2 10 = some 1 ∧
    collapseIndexer 10 .all (.regular 1 1 2) = some (1, .regular 1 2) ∧
    ceilNat ((1 : Int) - 1).toNat (2 : Int).toNat = 0 ∧
    regularSpanSize 1 1 2 = 1 ∧ (1 : Nat) ≠ 0 := by
  refine ⟨by decide, by decide, by decide, by decide, by decide, by decide⟩

/-- C6: on an axis of length `n ≥ 3`, `span(-3,-1)` collapses to exactly the
same view as `span(n-3,n-1)` (negative `first` wraps by `+n`, non-positive
`last` wraps by `+n`), and an in-range negative scalar index `i` selects the
same element as `i + n`. -/
theorem negativeSpanWrap {n : Nat} (hn : 3 ≤ n) :
    collapseIndexer n .all (.simple (-3) (-1)) =
      collapseIndexer n .all (.simple ((n : Int) - 3) ((n : Int) - 1)) ∧
    simpleFirst (-3) n = some ((n : Int) - 3) ∧
    simpleLast (-1) n = some ((n : Int) - 1) ∧
    (∀ i : Int, -(n : Int) ≤ i → i < 0 →
      collapseIndexer n .all (.scalar i) = collapseIndexer n .all (.scalar (i + n))) := by
  have ha3 : addIfNegative (-3) ((n : Nat) : Int) = (n : Int) - 3 := by
    simp only [addIfNegative]
    omega
  have ha1 : addIfNonPositive (-1) ((n : Nat) : Int) = (n : Int) - 1 := by
    simp only [addIfNonPositive]
    omega
  have hb3 : addIfNegative ((n : Int) - 3) ((n : Nat) : Int) = (n : Int) - 3 := by
    simp only [addIfNegative]
    rw [if_pos (by omega)]
  have hb1 : addIfNonPositive ((n : Int) - 1) ((n : Nat) : Int) = (n : Int) - 1 := by
    simp only [addIfNonPositive]
    rw [if_pos (by omega)]
  have hf1 : simpleFirst (-3) n = some ((n : Int) - 3) := by
    simp only [simpleFirst, ha3]
    rw [if_pos (by omega)]
  have hl1 : simpleLast (-1) n = some ((n : Int) - 1) := by
    simp only [simpleLast, ha1]
    rw [if_pos (by omega)]
  have hf2 : simpleFirst ((n : Int) - 3) n = some ((n : Int) - 3) := by
    simp only [simpleFirst, hb3]
    rw [if_pos (by omega)]
  have hl2 : simpleLast ((n : Int) - 1) n = some ((n : Int) - 1) := by
    simp only [simpleLast, hb1]
    rw [if_pos (by omega)]
  have key : ∀ f l : Int, simpleFirst f n = some ((n : Int) - 3) →
      simpleLast l n = some ((n : Int) - 1) →
      collapseIndexer n .all (.simple f l) =
        some ((n : Int) - 3, .simple (((n : Int) - 1) - ((n : Int) - 3)).toNat) := by
    intro f l hf hl
    simp only [collapseIndexer, if_neg (by decide : ¬(Indexer.all = Indexer.scalar)),
      Indexer.sizeOn]
    rw [hf, hl]
    dsimp only
    rw [if_pos (by omega : ((n : Int) - 3) ≤ (n : Int) - 1)]
  refine ⟨(key _ _ hf1 hl1).trans (key _ _ hf2 hl2).symm, hf1, hl1, ?_⟩
  intro i h1 h2
  have e1 : addIfNegative i (n : Int) = i + n := by
    simp only [addIfNegative]
    rw [if_neg (by omega)]
  have e2 : addIfNegative (i + (n : Int)) (n : Int) = i + n := by
    simp only [addIfNegative]
    rw [if_pos (by omega)]
  simp only [collapseIndexer, if_neg (by decide : ¬(Indexer.all = Indexer.scalar)),
    Indexer.sizeOn]
  rw [e1, e2]

/-- Witness for `negativeSpanWrap` at `n = 5`. -/
theorem negativeSpanWrap_witness :
    collapseIndexer 5 .all (.simple (-3) (-1)) =
      collapseIndexer 5 .all (.simple (((5 : Nat) : Int) - 3) (((5 : Nat) : Int) - 1)) ∧
    simpleFirst (-3) 5 = some (((5 : Nat) : Int) - 3) ∧
    simpleLast (-1) 5 = some (((5 : Nat) : Int) - 1) ∧
    (∀ i : Int, -((5 : Nat) : Int) ≤ i → i < 0 →
      collapseIndexer 5 .all (.scalar i) =
        collapseIndexer 5 .all (.scalar (i + (5 : Nat)))) :=
  negativeSpanWrap (by decide)

/-- C8: a `Regular` span with step 0 always fails: both bound-resolution
functions of `_regular_span` assert `step != 0`, and `collapse_indexer`
asserts `step > 0 ? ... : step < 0 ? ... : false`, so collapsing such a span
into any (non-collapsed) indexer signals an error rather than defaulting. -/
theorem regularStepZeroFails {n : Nat} {ix : Indexer} {f l : Int}
    (hix : ix ≠ .scalar) :
    collapseIndexer n ix (.regular f l 0) = none ∧
    regularFirst f 0 n = none ∧ regularLast l 0 n = none := by
  refine ⟨?_, by simp [regularFirst], by simp [regularLast]⟩
  simp only [collapseIndexer, if_neg hix]
  rw [show regularFirst f 0 (ix.sizeOn n) = none from by simp [regularFirst],
      show regularLast l 0 (ix.sizeOn n) = none from by simp [regularLast]]

/-- Witness for `regularStepZeroFails`: `span(1,5,0)` on a fresh axis of
length 10. -/
theorem regularStepZeroFails_witness :
    collapseIndexer 10 .all (.regular 1 5 0) = none ∧
    regularFirst 1 0 10 = none ∧ regularLast 5 0 10 = none :=
  regularStepZeroFails (by decide)

/-! ### Bounds checking of scalar indices (`array.h:_get_position`) -/

theorem getPositionAux_none : ∀ (ds : List Nat) (is : List Int) (acc k : Nat)
    (d : Nat) (i : Int), ds.get? k = some d → is.get? k = some i →
    resolveIndex d i = none → getPositionAux acc ds is = none := by
  intro ds
  induction ds with
  | nil => intro is acc k d i hd _ _; simp at hd
  | cons d0 ds ih =>
    intro is acc k d i hd hi hres
    cases is with
    | nil => rfl
    | cons i0 is =>
      cases k with
      | zero =>
        simp only [List.get?] at hd hi
        injection hd with hd
        injection hi with hi
        subst hd hi
        simp only [getPositionAux, hres]
      | succ k =>
        simp only [List.get?] at hd hi
        simp only [getPositionAux]
        cases hres0 : resolveIndex d0 i0 with
        | none => rfl
        | some p => exact ih is _ k d i hd hi hres

theorem getPositionAux_release_agrees : ∀ (ds : List Nat) (is : List Int)
    (acc : Nat) (p : Nat), getPositionAux acc ds is = some p →
    getPositionReleaseAux (acc : Int) ds is = (p : Int) := by
  intro ds
  induction ds with
  | nil =>
    intro is acc p h
    cases is with
    | nil =>
      simp only [getPositionAux, Option.some.injEq] at h
      subst h
      rfl
    | cons i0 is => exact absurd h (by simp [getPositionAux])
  | cons d0 ds ih =>
    intro is acc p h
    cases is with
    | nil => exact absurd h (by simp [getPositionAux])
    | cons i0 is =>
      simp only [getPositionAux] at h
      cases hres : resolveIndex d0 i0 with
      | none => rw [hres] at h; exact absurd h (by simp)
      | some q =>
        rw [hres] at h
        have hq : (q : Int) = addIfNegative i0 d0 ∧ 0 ≤ addIfNegative i0 d0 := by
          simp only [resolveIndex] at hres
          split at hres
          · next hg =>
            simp only [Option.some.injEq] at hres
            subst hres
            exact ⟨Int.toNat_of_nonneg hg.1, hg.1⟩
          · exact absurd hres (by simp)
        have := ih is (acc * d0 + q) p h
        simp only [getPositionReleaseAux]
        rw [show (acc : Int) * d0 + addIfNegative i0 d0 = ((acc * d0 + q : Nat) : Int) by
          push_cast [← hq.1]; ring]
        exact this

/-- C9: an out-of-bounds scalar index is caught by the checked-build
assertions of `_get_position`: on a 10×10 array the call `a(10,0)` fails the
bound check; in general, if any axis's index is out of bounds after
negative-index resolution (`_check_bound_scalar` fails on the resolved
value), `_get_position` signals; and the checks are assertion-style only —
whenever they pass, the release build (checks compiled out) computes the
identical position. -/
theorem outOfBoundsSignals :
    getPosition [10, 10] [10, 0] = none ∧
    (∀ (d : Nat) (i : Int), resolveIndex d i = none ↔
      checkBoundScalar (addIfNegative i d) d = false) ∧
    (∀ (dims : List Nat) (idx : List Int) (k : Nat) (d : Nat) (i : Int),
      dims.get? k = some d → idx.get? k = some i → resolveIndex d i = none →
      getPosition dims idx = none) ∧
    (∀ (dims : List Nat) (idx : List Int) (p : Nat),
      getPosition dims idx = some p → getPositionRelease dims idx = (p : Int)) := by
  refine ⟨by decide, ?_, ?_, ?_⟩
  · intro d i
    simp only [resolveIndex, checkBoundScalar]
    constructor
    · intro h
      split at h
      · exact absurd h (by simp)
      · next hg => simpa using hg
    · intro h
      split
      · next hg => simp at h; omega
      · rfl
  · intro dims idx k d i hd hi hres
    exact getPositionAux_none dims idx 0 k d i hd hi hres
  · intro dims idx p h
    exact getPositionAux_release_agrees dims idx 0 p h

/-- Witness for `outOfBoundsSignals`: the in-bounds index (3,4) of a 10×10
array has linear position 34 in both checked and release builds. -/
theorem outOfBoundsSignals_witness :
    getPosition [10, 10] [3, 4] = some 34 ∧
    getPositionRelease [10, 10] [3, 4] = ((34 : Nat) : Int) :=
  ⟨by decide, outOfBoundsSignals.2.2.2 [10, 10] [3, 4] 34 (by decide)⟩

/-! ### Implicit trailing `All` spans and span-count checking
(`indexer.h:_take_ith_span`, `traits.h:indexer_tuple_collapsing`) -/

/-- C10: a span position past the end of the supplied span tuple reads as an
implicit `span()` (All); collapsing an `All` span leaves the axis indexer
unchanged with offset 0 (the axis is kept in full); a call with no spans
leaves every axis unchanged; and the kind-level collapsing succeeds exactly
when the spans supplied do not outnumber the non-scalar axes (one more is
the compile-time error "Too many span specifications."). -/
theorem implicitTrailingAll :
    (∀ (spans : List Span) (i : Nat), spans.length ≤ i → takeIthSpan spans i = .all) ∧
    (∀ (n : Nat) (ix : Indexer), ix ≠ .scalar → collapseIndexer n ix .all = some (0, ix)) ∧
    (∀ ixs : List IndexerType, indexerTupleCollapsing ixs [] = some ixs) ∧
    (∀ (ixs : List IndexerType) (spans : List SpanKind),
      (indexerTupleCollapsing ixs spans).isSome ↔ spans.length ≤ nonScalarCount ixs) := by
  refine ⟨?_, ?_, ?_, ?_⟩
  · intro spans i h
    exact List.getD_eq_default _ _ h
  · intro n ix hix
    simp only [collapseIndexer, if_neg hix]
  · intro ixs
    cases ixs <;> rfl
  · intro ixs
    induction ixs with
    | nil =>
      intro spans
      cases spans with
      | nil => simp [indexerTupleCollapsing, nonScalarCount]
      | cons s ss => simp [indexerTupleCollapsing, nonScalarCount]
    | cons i is ih =>
      intro spans
      cases spans with
      | nil => simp [indexerTupleCollapsing, nonScalarCount]
      | cons s ss =>
        by_cases hi : i = .scalar
        · subst hi
          have hrec := ih (s :: ss)
          simp only [indexerTupleCollapsing, nonScalarCount, if_pos rfl, if_true,
            Option.isSome_map']
          rw [hrec]
          simp
        · have hrec := ih ss
          simp only [indexerTupleCollapsing, nonScalarCount, if_neg hi,
            Option.isSome_map']
          rw [hrec]
          simp only [List.length_cons]
          omega

/-- Witness for `implicitTrailingAll`. -/
theorem implicitTrailingAll_witness :
    takeIthSpan [Span.scalar 3] 2 = .all ∧
    collapseIndexer 10 (.simple 7) .all = some (0, .simple 7) ∧
    indexerTupleCollapsing [.all, .scalar, .simple] [] =
      some [.all, .scalar, .simple] ∧
    (indexerTupleCollapsing [.all, .scalar, .simple] [.regular]).isSome :=
  ⟨implicitTrailingAll.1 [Span.scalar 3] 2 (by decide),
   implicitTrailingAll.2.1 10 (.simple 7) (by decide),
   implicitTrailingAll.2.2.1 [.all, .scalar, .simple],
   (implicitTrailingAll.2.2.2 [.all, .scalar, .simple] [.regular]).mpr (by decide)⟩

/-! ### Reshape and flatten (`array_rearrange.h`) -/

/-- C4: when `product(dims) = a.size()`, reshaping an owning array
reinterprets the same backing vector under the new dimensions without
touching the elements, and flattening the result recovers exactly `a`'s
element sequence in linear order. -/
theorem reshapeFlattenRoundtrip {a : Arr} {dims : List Nat}
    (h : dims.prod = a.size) :
    reshape a dims = some ⟨a.data, dims⟩ ∧
    (∀ r, reshape a dims = some r → r.data = a.data) ∧
    (reshape a dims).bind flatten = some ⟨a.data, [a.size]⟩ := by
  have h1 : reshape a dims = some ⟨a.data, dims⟩ := by
    simp [reshape, Arr.checkSize, Arr.size] at h ⊢
    omega
  refine ⟨h1, ?_, ?_⟩
  · intro r hr
    rw [h1] at hr
    injection hr with hr
    rw [← hr]
  · rw [h1]
    simp only [Option.some_bind, flatten, reshape, Arr.checkSize, Arr.size]
    simp

/-- Witness for `reshapeFlattenRoundtrip`: a 6-element vector reshaped to
2×3 and flattened back. -/
theorem reshapeFlattenRoundtrip_witness :
    reshape ⟨[0, 1, 2, 3, 4, 5], [6]⟩ [2, 3] =
      some ⟨[0, 1, 2, 3, 4, 5], [2, 3]⟩ ∧
    (∀ r, reshape ⟨[0, 1, 2, 3, 4, 5], [6]⟩ [2, 3] = some r →
      r.data = [0, 1, 2, 3, 4, 5]) ∧
    (reshape ⟨[0, 1, 2, 3, 4, 5], [6]⟩ [2, 3]).bind flatten =
      some ⟨[0, 1, 2, 3, 4, 5], [6]⟩ :=
  reshapeFlattenRoundtrip (by decide)

/-! ### Aliasing-aware data copy (`data_copy.h`) -/

/-- C3 (code bug): `data_copy`'s overlap tests assume non-negative strides,
so an overlapping pair that is provably aliased slips into the direct-copy
path and reads already-overwritten elements.  On a 10-element array holding
`0..9`, the source view `a(span(4,-1,-1))` (elements at offsets 4,3,2,1,0;
a regular view with `base_ptr = base+4`, stride −1) and the destination view
`a(span(2,7))` (simple view at offsets 2..6) overlap, yet the range test
`src_ptr + size*src_stride <= dst_ptr` (here `4 + 5·(−1) = −1 ≤ 2`) claims
disjointness; the direct copy leaves value 4 at offset 4, while the
materialize-source-first semantics required by the spec leaves 2 there. -/
theorem dataCopyOverlapCorruption :
    collapseIndexer 10 .all (.regular 4 (-1) (-1)) = some (4, .regular 5 (-1)) ∧
    collapseIndexer 10 .all (.simple 2 7) = some (2, .simple 5) ∧
    viewPositions 10 4 (.regular 5 (-1)) = [4, 3, 2, 1, 0] ∧
    viewPositions 10 2 (.simple 5) = [2, 3, 4, 5, 6] ∧
    dataCopySameId ⟨.regular, 4, -1, [4, 3, 2, 1, 0]⟩ ⟨.simple, 2, 1, [2, 3, 4, 5, 6]⟩
      (fun p => p) 4 = 4 ∧
    stagedCopy (fun p => p) [4, 3, 2, 1, 0] [2, 3, 4, 5, 6] 4 = 2 ∧
    (4 : Int) ≠ 2 := by
  exact ⟨by decide, by decide, by decide, by decide, by decide, by decide, by decide⟩

/-- The concrete scenario of the spec does work: copying column 3 of a 10×10
array (`reshape(range(100),{10,10})`) into column 1 — two regular views with
stride 10 whose base pointers differ by 2, which is not divisible by the
stride, so the modular overlap test proves them disjoint and the direct copy
is safe.  Column 1 receives `{3,13,...,93}` and column 3 is unchanged. -/
theorem dataCopyColumnScenario :
    (([1, 11, 21, 31, 41, 51, 61, 71, 81, 91] : List Int).map
      (dataCopySameId
        ⟨.regular, 3, 10, [3, 13, 23, 33, 43, 53, 63, 73, 83, 93]⟩
        ⟨.regular, 1, 10, [1, 11, 21, 31, 41, 51, 61, 71, 81, 91]⟩
        (fun p => p)) =
      [3, 13, 23, 33, 43, 53, 63, 73, 83, 93]) ∧
    (([3, 13, 23, 33, 43, 53, 63, 73, 83, 93] : List Int).map
      (dataCopySameId
        ⟨.regular, 3, 10, [3, 13, 23, 33, 43, 53, 63, 73, 83, 93]⟩
        ⟨.regular, 1, 10, [1, 11, 21, 31, 41, 51, 61, 71, 81, 91]⟩
        (fun p => p)) =
      [3, 13, 23, 33, 43, 53, 63, 73, 83, 93]) := by
  exact ⟨by decide, by decide⟩

/-! ### Soundness of the disjointness tests for non-negative strides

These supporting results show that where `data_copy`'s overlap analysis is
honest — contiguous operands, and equal positive strides with the modular
test — the direct copy it chooses really does coincide with the
materialize-source-first semantics, so the corruption exhibited in
`dataCopyOverlapCorruption` is specifically a negative-stride hole. -/

theorem seqCopy_eq_writeVals : ∀ (pairs : List (Int × Int)) (b : Buf),
    (∀ pr ∈ pairs, ∀ qr ∈ pairs, pr.2 ≠ qr.1) →
    seqCopy b pairs = writeVals b (pairs.map (fun pr => (pr.1, b pr.2))) := by
  intro pairs
  induction pairs with
  | nil => intro b _; rfl
  | cons hd rest ih =>
    intro b hdis
    obtain ⟨d, s⟩ := hd
    simp only [seqCopy, writeVals, List.map_cons]
    rw [ih (bufWrite b d (b s))
      (fun pr hpr qr hqr => hdis pr (by simp [hpr]) qr (by simp [hqr]))]
    have hmap : List.map (fun pr => (pr.1, bufWrite b d (b s) pr.2)) rest
        = List.map (fun pr => (pr.1, b pr.2)) rest := by
      apply List.map_congr_left
      intro pr hpr
      have hne : pr.2 ≠ d := hdis pr (by simp [hpr]) (d, s) (by simp)
      simp [bufWrite, hne]
    rw [hmap]

theorem zip_map_snd (dp sp : List Int) (b : Buf) :
    (dp.zip sp).map (fun pr => (pr.1, b pr.2)) = dp.zip (sp.map b) := by
  induction dp generalizing sp with
  | nil => simp
  | cons d ds ih =>
    cases sp with
    | nil => simp
    | cons s ss => simp [ih]

theorem directCopy_eq_stagedCopy_of_disjoint (b : Buf) (sp dp : List Int)
    (hdis : ∀ x ∈ sp, x ∉ dp) :
    directCopy b sp dp = stagedCopy b sp dp := by
  unfold directCopy stagedCopy
  rw [← zip_map_snd dp sp b]
  apply seqCopy_eq_writeVals
  intro pr hpr qr hqr
  obtain ⟨d1, s1⟩ := pr
  obtain ⟨d2, s2⟩ := qr
  have h1 := List.of_mem_zip hpr
  have h2 := List.of_mem_zip hqr
  intro he
  have he' : s1 = d2 := he
  exact hdis s1 h1.2 (he' ▸ h2.1)

theorem progressions_disjoint_of_tmod_ne {p1 p2 st : Int}
    (h : (p1 - p2).tmod st ≠ 0) :
    ∀ i j : Nat, p1 + (i : Int) * st ≠ p2 + (j : Int) * st := by
  intro i j he
  apply h
  apply Int.tmod_eq_zero_of_dvd
  exact ⟨(j : Int) - (i : Int), by linarith [he]⟩

theorem dataCopySameId_simple_simple (b : Buf) (p1 p2 : Int) (sz : Nat) :
    dataCopySameId ⟨.simple, p1, 1, simplePositions p1 sz⟩
      ⟨.simple, p2, 1, simplePositions p2 sz⟩ b =
    stagedCopy b (simplePositions p1 sz) (simplePositions p2 sz) := by
  have hlen1 : (simplePositions p1 sz).length = sz := by simp [simplePositions]
  have hlen2 : (simplePositions p2 sz).length = sz := by simp [simplePositions]
  unfold dataCopySameId
  rw [if_neg (show ¬(OperandKind.simple = OperandKind.array) by decide)]
  rw [if_neg (show ¬(OperandKind.simple = OperandKind.array ∧
        OperandKind.simple = OperandKind.array) by decide),
      if_neg (show ¬(OperandKind.simple = OperandKind.array ∨
        OperandKind.simple = OperandKind.array ∨
        OperandKind.simple = OperandKind.irregular ∨
        OperandKind.simple = OperandKind.irregular) by decide),
      if_pos (show OperandKind.simple = OperandKind.simple ∧
        OperandKind.simple = OperandKind.simple from ⟨rfl, rfl⟩)]
  rw [show (simplePositions p1 sz).take ((simplePositions p2 sz).length)
        = simplePositions p1 sz from by
        rw [hlen2]; exact List.take_of_length_le (le_of_eq hlen1),
      show (simplePositions p2 sz).take ((simplePositions p2 sz).length)
        = simplePositions p2 sz from List.take_length _,
      hlen2]
  split
  · next htest =>
    apply directCopy_eq_stagedCopy_of_disjoint
    intro x hx hy
    simp only [simplePositions, List.mem_map, List.mem_range] at hx hy
    obtain ⟨i, hi, hxi⟩ := hx
    obtain ⟨j, hj, hyj⟩ := hy
    try dsimp only at htest
    try simp only [hlen2] at htest
    rcases htest with ht | ht <;> omega
  · rfl

theorem dataCopySameId_regular_same_stride (b : Buf) (p1 p2 st : Int) (sz : Nat)
    (hst : 0 < st) :
    dataCopySameId ⟨.regular, p1, st, regularPositions p1 st sz⟩
      ⟨.regular, p2, st, regularPositions p2 st sz⟩ b =
    stagedCopy b (regularPositions p1 st sz) (regularPositions p2 st sz) := by
  have hlen1 : (regularPositions p1 st sz).length = sz := by simp [regularPositions]
  have hlen2 : (regularPositions p2 st sz).length = sz := by simp [regularPositions]
  unfold dataCopySameId
  rw [if_neg (show ¬(OperandKind.regular = OperandKind.array) by decide)]
  rw [if_neg (show ¬(OperandKind.regular = OperandKind.array ∧
        OperandKind.regular = OperandKind.array) by decide),
      if_neg (show ¬(OperandKind.regular = OperandKind.array ∨
        OperandKind.regular = OperandKind.array ∨
        OperandKind.regular = OperandKind.irregular ∨
        OperandKind.regular = OperandKind.irregular) by decide),
      if_neg (show ¬(OperandKind.regular = OperandKind.simple ∧
        OperandKind.regular = OperandKind.simple) by decide),
      if_pos (show OperandKind.regular = OperandKind.regular ∧
        OperandKind.regular = OperandKind.regular ∧ st = st from ⟨rfl, rfl, rfl⟩)]
  rw [show (regularPositions p1 st sz).take ((regularPositions p2 st sz).length)
        = regularPositions p1 st sz from by
        rw [hlen2]; exact List.take_of_length_le (le_of_eq hlen1),
      show (regularPositions p2 st sz).take ((regularPositions p2 st sz).length)
        = regularPositions p2 st sz from List.take_length _,
      hlen2]
  split
  · next htest =>
    apply directCopy_eq_stagedCopy_of_disjoint
    intro x hx hy
    simp only [regularPositions, List.mem_map, List.mem_range] at hx hy
    obtain ⟨i, hi, hxi⟩ := hx
    obtain ⟨j, hj, hyj⟩ := hy
    try dsimp only at htest
    try simp only [hlen2] at htest
    rcases htest with ht | ht | ht
    · exact progressions_disjoint_of_tmod_ne ht i j (by linarith)
    · have hi1 : ((i : Int) + 1) * st ≤ (sz : Int) * st :=
        mul_le_mul_of_nonneg_right (by omega) hst.le
      have hj0 : 0 ≤ (j : Int) * st := mul_nonneg (by omega) hst.le
      nlinarith
    · have hj1 : ((j : Int) + 1) * st ≤ (sz : Int) * st :=
        mul_le_mul_of_nonneg_right (by omega) hst.le
      have hi0 : 0 ≤ (i : Int) * st := mul_nonneg (by omega) hst.le
      nlinarith
  · rfl

/-! ### The staging buffer of `aliased_data_copy` -/

theorem overwritePre_length : ∀ (o v : List Int), (overwritePre o v).length = o.length := by
  intro o
  induction o with
  | nil => intro v; cases v <;> rfl
  | cons x os ih =>
    intro v
    cases v with
    | nil => rfl
    | cons w vs => simp [overwritePre, ih vs]

theorem overwritePre_take : ∀ (o v : List Int), v.length ≤ o.length →
    (overwritePre o v).take v.length = v := by
  intro o
  induction o with
  | nil =>
    intro v h
    cases v with
    | nil => rfl
    | cons w vs => simp at h
  | cons x os ih =>
    intro v h
    cases v with
    | nil => rfl
    | cons w vs =>
      simp only [overwritePre, List.length_cons, List.take_succ_cons]
      rw [ih vs (by simpa using h)]

/-- C7: whenever `data_copy` stages (`aliased_data_copy`), the staging vector
has `src.size()` elements, its element type is the one of the two element
types with the smaller `sizeof`, the source is copied into it in element
order (each value narrowed to the staging type), and the destination then
receives the staging values in element order (each converted to the
destination type) — so every copied value is truncated to
`min(sizeof(src), sizeof(dst))` bytes on the way. -/
theorem aliasedStagingBuffer {srcSz dstSz : Nat} {srcVals : List Int} {size : Nat}
    (hsz : size ≤ srcVals.length) :
    (aliasedDataCopyTyped srcSz dstSz srcVals size).1.length = srcVals.length ∧
    tempElemSize srcSz dstSz = min srcSz dstSz ∧
    (aliasedDataCopyTyped srcSz dstSz srcVals size).2 =
      (srcVals.take size).map (fun v => convTo dstSz (convTo (min srcSz dstSz) v)) := by
  have hmin : tempElemSize srcSz dstSz = min srcSz dstSz := by
    simp only [tempElemSize]
    split <;> omega
  refine ⟨?_, hmin, ?_⟩
  · simp only [aliasedDataCopyTyped]
    rw [overwritePre_length]
    simp
  · simp only [aliasedDataCopyTyped]
    have hlen : ((srcVals.take size).map (convTo (tempElemSize srcSz dstSz))).length
        = size := by
      simp only [List.length_map, List.length_take]
      omega
    have hpre := overwritePre_take (List.replicate srcVals.length 0)
      ((srcVals.take size).map (convTo (tempElemSize srcSz dstSz)))
      (by rw [hlen]; simp only [List.length_replicate]; omega)
    rw [hlen] at hpre
    rw [hpre, List.map_map, hmin]
    rfl

/-- Witness for `aliasedStagingBuffer`: an 8-byte source copied to a 4-byte
destination stages through a 4-byte buffer of 2 elements. -/
theorem aliasedStagingBuffer_witness :
    (aliasedDataCopyTyped 8 4 [300, 70000] 2).1.length = ([300, 70000] : List Int).length ∧
    tempElemSize 8 4 = min 8 4 ∧
    (aliasedDataCopyTyped 8 4 [300, 70000] 2).2 =
      (([300, 70000] : List Int).take 2).map
        (fun v => convTo 4 (convTo (min 8 4) v)) :=
  aliasedStagingBuffer (by decide)

end NdArray
